import Mathlib

/-!
# Verification of the owmeta-core Property/PropertyExpr/DataSource model

A shallow embedding of `owmeta_core/dataobject_property.py` and
`owmeta_core/datasource.py`.  Python objects are modelled as explicit state
records; mutation becomes state passing; Python `list.remove` (remove the
first equal element) is `List.erase`; exceptions become `Except`.

Identities: Property instances are identified by a `Nat` id (`pid`); owners
and contexts by `Nat` ids; a property's bound context (`self.context`) is an
`Option Nat` (`none` models Python `None`).  Values are an abstract type `V`
with decidable equality.
-/

namespace OwMeta

/-- Modelled from the spec: `Statement` (class `statement.py`, not in the
sources given) is the quad `(subject, property, object, context)` with value
equality componentwise ("Value-equal tuples are deduplicated", spec §3). -/
structure Stmt (V : Type) where
  subj : Nat
  propId : Nat
  obj : V
  ctx : Option Nat
deriving DecidableEq, Repr

/-- The mutable state reachable from one `Property` instance:
`v` is `self._v` (the ordered Statement list), `ownerProps x` is
`x.owner_properties` for each value `x` (a list of property ids, since
Python compares list elements of `owner_properties` by identity),
`hdf` is `self._hdf` (the per-context `has_defined_value` cache) and
`ctxStmts` is the statement set owned by the property's bound context
(modelled from the spec §3: a Context has an "owned Statement set";
`Context.add_statement` appends to it). -/
structure PropState (V : Type) [DecidableEq V] where
  v : List (Stmt V)
  ownerProps : V → List Nat
  hdf : Option Nat → Option Bool
  ctxStmts : List (Stmt V)

variable {V : Type} [DecidableEq V]

/-- `Property.has_value`: some statement's context equals the bound context. -/
def hasValue (st : PropState V) (cctx : Option Nat) : Bool :=
  st.v.any fun x => decide (x.ctx = cctx)

/-- `Property.values` (without the contextualization wrapper, which does not
change which objects appear): the objects of statements bound to the current
context, in order. -/
def valuesList (st : PropState V) (cctx : Option Nat) : List V :=
  st.v.filterMap fun x => if x.ctx = cctx then some x.obj else none

/-- The loop body of `Property.clear`:

```
for x in self._v:
    assert self in x.object.owner_properties
    x.object.owner_properties.remove(self)
    self._v.remove(x)
```

Python iterates by index over the list `self._v` *while removing from it*:
at each step, if the index `i` is still in range, the element `x = _v[i]` is
fetched, the first occurrence of the property is removed from
`x.object.owner_properties`, and the first element equal to `x` is removed
from `_v`; then `i` is incremented.  `fuel` bounds the number of loop steps;
the list shrinks by one per step while `i` grows by one, so the loop runs at
most `⌈n/2⌉ ≤ n` steps for an initial length `n`, and `clear` passes
`fuel = st.v.length`, after which the index is necessarily out of range. -/
def clearLoop (pid : Nat) : Nat → PropState V → Nat → PropState V
  | 0, st, _ => st
  | fuel + 1, st, i =>
    if h : i < st.v.length then
      let x := st.v.get ⟨i, h⟩
      let st' : PropState V :=
        { st with
          ownerProps := Function.update st.ownerProps x.obj ((st.ownerProps x.obj).erase pid),
          v := st.v.erase x }
      clearLoop pid fuel st' (i + 1)
    else st

/-- `Property.clear`: resets `_hdf` to an empty dict, then runs the removal
loop over `_v`. -/
def clear (pid : Nat) (st : PropState V) : PropState V :=
  clearLoop pid st.v.length { st with hdf := fun _ => none } 0

/-- `Property._insert_value(v)`: builds `Statement(self.owner, self, v,
self.context)`, invalidates the `_hdf` cache entry for the bound context,
appends the statement to `_v` and appends the property to
`v.owner_properties`; returns the statement. -/
def insertValue (pid subj : Nat) (cctx : Option Nat) (st : PropState V) (v : V) :
    Stmt V × PropState V :=
  let stmt : Stmt V := ⟨subj, pid, v, cctx⟩
  (stmt,
    { st with
      hdf := Function.update st.hdf cctx none,
      v := st.v ++ [stmt],
      ownerProps := Function.update st.ownerProps v (st.ownerProps v ++ [pid]) })

/-- `Property._remove_value(v)`: invalidates the `_hdf` cache entry, removes
the first occurrence of the property from `v.owner_properties` and removes
the first element of `_v` equal to `Statement(self.owner, self, v,
self.context)`. -/
def removeValue (pid subj : Nat) (cctx : Option Nat) (st : PropState V) (v : V) :
    PropState V :=
  { st with
    hdf := Function.update st.hdf cctx none,
    ownerProps := Function.update st.ownerProps v ((st.ownerProps v).erase pid),
    v := st.v.erase ⟨subj, pid, v, cctx⟩ }

/-- The error raised by `Property.set(None)`:
`ValueError('It is not permitted to declare a property to have value the None')`. -/
inductive SetErr where
  | invalidValue
deriving DecidableEq, Repr

/-- `Property.set(v)`:

```
if v is None: raise ValueError(...)
if not hasattr(v, 'idl'): v = ContextualizedPropertyValue(v)
if not self.multiple: self.clear()
stmt = self._insert_value(v)
if self.context is not None: self.context.add_statement(stmt)
return stmt
```

The `ContextualizedPropertyValue` wrapping of bare scalars is the identity
in this model (values are already abstract).  The result pairs the returned
statement (or the raised error) with the state after the call; on the error
path the state is the input state, since the `raise` is the first statement
of the method. -/
def set (pid subj : Nat) (cctx : Option Nat) (multiple : Bool) (st : PropState V)
    (v : Option V) : Except SetErr (Stmt V) × PropState V :=
  match v with
  | none => (.error .invalidValue, st)
  | some v =>
    let st1 := if multiple then st else clear pid st
    let (stmt, st2) := insertValue pid subj cctx st1 v
    let st3 :=
      match cctx with
      | none => st2
      | some _ => { st2 with ctxStmts := st2.ctxStmts ++ [stmt] }
    (.ok stmt, st3)

/-- The owner-not-`defined` branch of `Property.get`:

```
v = Variable("var" + str(id(self)))
self._insert_value(v)
... g = ZeroOrMoreTQLayer(_zomifier, self.rdf)
results = GraphObjectQuerier(v, g, parallel=False, hop_scorer=goq_hop_scorer)()
self._remove_value(v)
return results
```

Modelled from the spec: `GraphObjectQuerier` (`graph_object.py`, not in the
sources given) "submits the owner's full property graph" and returns a set
of terms; it reads the state but does not mutate it, so it is abstracted as
a function `querier` from the state (after the placeholder insertion) to the
result list.  `Variable` (`variable.py`, not in the sources given) is a
fresh placeholder value `var`. -/
def getUndefined (pid subj : Nat) (cctx : Option Nat) (st : PropState V) (var : V)
    (querier : PropState V → List V) : List V × PropState V :=
  let (_, st1) := insertValue pid subj cctx st var
  let results := querier st1
  let st2 := removeValue pid subj cctx st1 var
  (results, st2)

/-! ## Concrete states used as inputs for the `Property` claims -/

/-- A property (id 7, owner 0) holding two Statements in context `0`, with
the back-reference invariant satisfied (`7 ∈ owner_properties` of each held
value). -/
def twoValueState : PropState Nat :=
  { v := [⟨0, 7, 1, some 0⟩, ⟨0, 7, 2, some 0⟩],
    ownerProps := fun x => if x = 1 ∨ x = 2 then [7] else [],
    hdf := fun _ => none,
    ctxStmts := [] }

/-- A property (id 7, owner 0) holding one Statement, bound to context `1`. -/
def oneValueState : PropState Nat :=
  { v := [⟨0, 7, 5, some 1⟩],
    ownerProps := fun x => if x = 5 then [7] else [],
    hdf := fun _ => none,
    ctxStmts := [] }

/-! ## Claim theorems about `Property` -/

/-- **C1** (code bug).  `Property.clear`'s docstring says "Clears values set
*in all contexts*", but the loop removes elements from `self._v` while
iterating over it by index, so for a property holding two Statements the
second Statement survives `clear()`: `has_value()` is still true and the
property is still in the surviving value's `owner_properties`
back-reference list. -/
theorem c1_clear_leaves_statements :
    (clear 7 twoValueState).v = [⟨0, 7, 2, some 0⟩] ∧
    hasValue (clear 7 twoValueState) (some 0) = true ∧
    (clear 7 twoValueState).ownerProps 2 = [7] := by decide

/-- **C2** (counterexample).  The claim says `set(v)` with `multiple=False`
"leaves Statements bound to other contexts unchanged"; but `set` calls
`clear()`, which is global: a property bound to context `0` holding a prior
Statement in context `1` loses that Statement on `set`. -/
theorem c2_set_removes_other_context :
    (⟨0, 7, 5, some 1⟩ : Stmt Nat) ∈ oneValueState.v ∧
    (⟨0, 7, 5, some 1⟩ : Stmt Nat) ∉ ((set 7 0 (some 0) false oneValueState (some 9)).2).v := by
  decide

theorem clear_of_length_le_one (pid : Nat) (st : PropState V) (hlen : st.v.length ≤ 1) :
    (clear pid st).v = [] := by
  match h : st.v with
  | [] => simp [clear, clearLoop, h]
  | [x] => simp [clear, clearLoop, h]
  | a :: b :: t => rw [h] at hlen; simp at hlen

/-- **C2** (amended).  With `multiple` false, `set(v)` first clears prior
Statements *globally across all contexts* via `clear()` — which, when the
property holds at most one prior Statement, removes it regardless of its
context — then inserts `Statement(owner, p, v, context)` and returns that
Statement; with `multiple` true the prior Statements persist alongside the
newly inserted one. -/
theorem c2_set_amended (pid subj : Nat) (cctx : Option Nat) (st : PropState V) (v : V)
    (hlen : st.v.length ≤ 1) :
    ((set pid subj cctx false st (some v)).1 = .ok ⟨subj, pid, v, cctx⟩ ∧
     (set pid subj cctx false st (some v)).2.v = [⟨subj, pid, v, cctx⟩]) ∧
    ((set pid subj cctx true st (some v)).1 = .ok ⟨subj, pid, v, cctx⟩ ∧
     (set pid subj cctx true st (some v)).2.v = st.v ++ [⟨subj, pid, v, cctx⟩]) := by
  have hcl := clear_of_length_le_one pid st hlen
  cases cctx <;> simp [set, insertValue, hcl]

theorem c2_set_amended_witness :
    oneValueState.v.length ≤ 1 ∧
    (set 7 0 (some 0) false oneValueState (some 9)).2.v = [⟨0, 7, 9, some 0⟩] :=
  ⟨by decide, (c2_set_amended 7 0 (some 0) oneValueState 9 (by decide)).1.2⟩

/-- **C3** (confirmed).  When the owner is not defined, `get` inserts a
placeholder variable Statement, submits the query, and removes the
placeholder: afterwards the property's Statement list and every value's
`owner_properties` back-reference list are exactly what they were before
the call.  The hypotheses say the placeholder is fresh (a newly constructed
`Variable` is not already a value of the property and has no back-reference
to it), which holds for `Variable("var" + str(id(self)))`. -/
theorem c3_get_restores_state (pid subj : Nat) (cctx : Option Nat) (st : PropState V)
    (var : V) (querier : PropState V → List V)
    (h1 : (⟨subj, pid, var, cctx⟩ : Stmt V) ∉ st.v)
    (h2 : pid ∉ st.ownerProps var) :
    (getUndefined pid subj cctx st var querier).2.v = st.v ∧
    (getUndefined pid subj cctx st var querier).2.ownerProps = st.ownerProps := by
  constructor
  · show (st.v ++ [(⟨subj, pid, var, cctx⟩ : Stmt V)]).erase ⟨subj, pid, var, cctx⟩ = st.v
    rw [List.erase_append_right _ h1, List.erase_cons_head]
    simp
  · show Function.update
        (Function.update st.ownerProps var (st.ownerProps var ++ [pid])) var
        ((Function.update st.ownerProps var (st.ownerProps var ++ [pid]) var).erase pid) =
        st.ownerProps
    rw [Function.update_same, List.erase_append_right _ h2, List.erase_cons_head]
    rw [Function.update_idem]
    simp [Function.update_eq_self]

theorem c3_get_restores_state_witness :
    ((⟨0, 7, 99, some 1⟩ : Stmt Nat) ∉ oneValueState.v ∧ 7 ∉ oneValueState.ownerProps 99) ∧
    (getUndefined 7 0 (some 1) oneValueState 99 (fun _ => [3, 4])).2.v = oneValueState.v :=
  ⟨⟨by decide, by decide⟩,
   (c3_get_restores_state 7 0 (some 1) oneValueState 99 (fun _ => [3, 4])
      (by decide) (by decide)).1⟩

/-- **C8** (confirmed).  `set(None)` raises the invalid-value error before
any mutation: the returned state is the input state, so the property's
Statement list and the bound context's statement set are unchanged. -/
theorem c8_set_none_raises_unchanged (pid subj : Nat) (cctx : Option Nat) (multiple : Bool)
    (st : PropState V) :
    set pid subj cctx multiple st none = (.error SetErr.invalidValue, st) := rfl

/-! ## PropertyExpr: term streams (`__or__`, `to_terms`, `_compute_terms`) -/

/-- The shape of a `PropertyExpr`'s `terms_provider` closure: a root
expression's provider is `_compute_terms` over its `props`; the provider of
a union built by `__or__` chains the two sides' providers. -/
inductive ExprSrc where
  | root (props : List Nat)
  | union (l r : ExprSrc)
deriving DecidableEq, Repr

/-- Evaluating the `terms_provider` closure.  `getTerms p` is the term
stream of `Property.get_terms` for the property with id `p` (`get_terms` is
an alias of `get`).  For a root expression this is `_compute_terms`, i.e.
`list(itertools.chain(*(prop.get_terms() for prop in self.props)))`; for a
union it is `itertools.chain(self.terms_provider(), other.terms_provider())`. -/
def termsProvider {T : Type} (getTerms : Nat → List T) : ExprSrc → List T
  | .root ps => (ps.map getTerms).flatten
  | .union l r => termsProvider getTerms l ++ termsProvider getTerms r

/-- `PropertyExpr.to_terms`: if `self.terms` (the memo) is unset, invoke the
provider, materialize the result as a list and store it; return the stored
list together with the new memo state. -/
def toTerms {T : Type} (getTerms : Nat → List T) (src : ExprSrc)
    (memo : Option (List T)) : List T × Option (List T) :=
  match memo with
  | some t => (t, memo)
  | none =>
    let t := termsProvider getTerms src
    (t, some t)

/-- `PropertyExpr.__or__`: `if self is other: return self`, else a new
expression over the concatenated `props` whose providers chain the two
sides' providers.  `same` models the Python identity test `self is other`
(true only when the two expressions are the same object, which for
`p1.expr | p2.expr` happens exactly when `p1` and `p2` are the same
property, `expr` being cached per property). -/
def exprOr (same : Bool) (e1 e2 : ExprSrc) : ExprSrc :=
  if same then e1 else .union e1 e2

/-- **C6** (confirmed).  The set of terms of `(p1.expr | p2.expr).to_terms()`
is `set(p1.get_terms()) ∪ set(p2.get_terms())`.  The hypothesis reflects
that the `self is other` shortcut of `__or__` can only fire when `p1` and
`p2` are the same property. -/
theorem c6_union_terms {T : Type} [DecidableEq T] (getTerms : Nat → List T)
    (p1 p2 : Nat) (same : Bool) (hsame : same = true → p1 = p2) :
    ((toTerms getTerms (exprOr same (.root [p1]) (.root [p2])) none).1).toFinset =
      (getTerms p1).toFinset ∪ (getTerms p2).toFinset := by
  cases same
  · simp [toTerms, exprOr, termsProvider]
  · have h := hsame rfl
    subst h
    simp [toTerms, exprOr, termsProvider]

theorem c6_union_terms_witness :
    ((toTerms (fun p => if p = 0 then [1, 2] else [2, 3])
        (exprOr false (.root [0]) (.root [1])) none).1).toFinset =
      ([1, 2] : List Nat).toFinset ∪ ([2, 3] : List Nat).toFinset :=
  c6_union_terms (fun p => if p = 0 then [1, 2] else [2, 3]) 0 1 false (by decide)

/-- **C7** (counterexample).  `to_terms` does *not* deduplicate: for two
properties that each produce the term `5`, the union expression's
`to_terms()` contains `5` twice. -/
theorem c7_to_terms_not_dedup :
    (toTerms (fun _ => [5]) (exprOr false (.root [0]) (.root [1])) none).1 = [5, 5] ∧
    ¬ ((toTerms (fun _ => [5]) (exprOr false (.root [0]) (.root [1])) none).1).Nodup := by
  decide

/-- **C7** (amended).  `to_terms()` returns the provider's terms materialized
as a list — possibly containing duplicates — and memoizes it: the first call
stores the provider's output, and any later call returns the stored sequence
unchanged, without invoking the terms provider again (the result of a
memoized call does not depend on the provider at all). -/
theorem c7_to_terms_memoized {T : Type} (getTerms : Nat → List T) (src : ExprSrc) :
    toTerms getTerms src none =
      (termsProvider getTerms src, some (termsProvider getTerms src)) ∧
    (∀ (getTerms' : Nat → List T) (src' : ExprSrc) (t : List T),
      toTerms getTerms' src' (some t) = (t, some t)) :=
  ⟨rfl, fun _ _ _ => rfl⟩

/-! ## `ContextMappedPropertyClass.__lt__` (type ordering) -/

/-- `ContextMappedPropertyClass.__lt__(self, other)`:

```
res = False
if issubclass(other, self) and not issubclass(self, other):
    res = True
elif issubclass(self, other) == issubclass(other, self):
    res = self.__name__ < other.__name__
return res
```

`issub x y` models `issubclass(x, y)` and `nm` models `__name__`. -/
def clsLt {C : Type} (issub : C → C → Bool) (nm : C → String) (self other : C) : Bool :=
  if issub other self && !issub self other then true
  else if issub self other == issub other self then decide (nm self < nm other)
  else false

/-- Spec-side notion: `a` is a registered ancestor of `b` iff `b` is a
subclass of `a`. -/
def registeredAncestor {C : Type} (issub : C → C → Bool) (a b : C) : Prop :=
  issub b a = true

/-- A concrete two-class registry: class `1` is a subclass of class `0`
(so `0` is a registered ancestor of `1`), and not vice versa. -/
def csub : Nat → Nat → Bool := fun x y => x == y || (x == 1 && y == 0)

def cname : Nat → String := fun x => if x == 0 then "A" else "B"

/-- **C4** (counterexample).  Take `B := 1` and `A := 0` under `csub`:
`A` is a registered ancestor of `B` and not vice versa, so the claim says
`B < A` holds — but `__lt__` tests `issubclass(other, self)`, i.e. whether
`A` is a *descendant* of `B`, and returns `False` here. -/
theorem c4_lt_counterexample :
    ¬ (clsLt csub cname 1 0 = true ↔
        (registeredAncestor csub 0 1 ∧ ¬ registeredAncestor csub 1 0)) := by
  unfold registeredAncestor
  decide

/-- **C4** (amended).  `B < A` holds iff `B` is a registered ancestor of `A`
(that is, `A` is a registered descendant of `B`) and not vice versa; when
the subclass relation between the two is symmetric (neither is an ancestor
of the other, or each is a subclass of the other), `B < A` holds iff `B`'s
name lexicographically precedes `A`'s name. -/
theorem c4_lt_amended {C : Type} (issub : C → C → Bool) (nm : C → String) (b a : C) :
    clsLt issub nm b a = true ↔
      (registeredAncestor issub b a ∧ ¬ registeredAncestor issub a b) ∨
      ((registeredAncestor issub a b ↔ registeredAncestor issub b a) ∧ nm b < nm a) := by
  unfold clsLt registeredAncestor
  cases h1 : issub a b <;> cases h2 : issub b a <;> simp [h1, h2]

/-! ## PropertyExpr.to_dict

`to_dict(multiple)` materializes the expression's triples into a Python
dict.  In `multiple=False` mode the dict values are bare objects; in
`multiple=True` mode they are sets of objects; `DVal` is this value type.
The dict is modelled as an association list with insert-or-replace
(`ainsert`) and first-match lookup (`alookup`), matching `dict.__setitem__`
and `dict.get`. -/

/-- A value stored in the `to_dict` result: a bare object (`multiple=False`)
or a set of objects (`multiple=True`). -/
inductive DVal (O : Type) where
  | single (o : O)
  | multi (s : Finset O)
deriving DecidableEq

/-- `dict.get(k)`: the value at the first (unique) matching key. -/
def alookup {K A : Type} [DecidableEq K] : List (K × A) → K → Option A
  | [], _ => none
  | (k, a) :: t, q => if k = q then some a else alookup t q

/-- `dict[k] = a`: replace the value at `k`, or append a new entry. -/
def ainsert {K A : Type} [DecidableEq K] : List (K × A) → K → A → List (K × A)
  | [], k, a => [(k, a)]
  | (k', a') :: t, k, a => if k' = k then (k, a) :: t else (k', a') :: ainsert t k a

/-- `PropertyExprError`, raised as
`PropertyExprError(f'More than one value for {p} in the results for {s}')`. -/
inductive PEErr (P S : Type) where
  | moreThanOne (p : P) (s : S)
deriving DecidableEq

/-- The `multiple=False` loop of `PropertyExpr.to_dict`:

```
for s, p, o in triples:
    current_value = res.get(s)
    if current_value is not None and current_value != o:
        raise PropertyExprError(...)
    res[s] = o
```
-/
def toDictSingleGo {S P O : Type} [DecidableEq S] [DecidableEq O] :
    List (S × P × O) → List (S × DVal O) → Except (PEErr P S) (List (S × DVal O))
  | [], res => .ok res
  | (s, p, o) :: rest, res =>
    match alookup res s with
    | some cv =>
      if cv ≠ DVal.single o then .error (.moreThanOne p s)
      else toDictSingleGo rest (ainsert res s (DVal.single o))
    | none => toDictSingleGo rest (ainsert res s (DVal.single o))

/-- The `multiple=True` loop of `PropertyExpr.to_dict`:

```
for s, p, o in triples:
    values = res.get(s)
    if values is None:
        values = set([o])
        res[s] = values
    else:
        values.add(o)
```

Since `res` starts empty and this loop only ever stores sets, the
accumulator carries the sets directly; `toDict` injects them into `DVal`
at the end. -/
def toDictMultiGo {S P O : Type} [DecidableEq S] [DecidableEq O] :
    List (S × P × O) → List (S × Finset O) → List (S × Finset O)
  | [], res => res
  | (s, _, o) :: rest, res =>
    match alookup res s with
    | none => toDictMultiGo rest (ainsert res s {o})
    | some vs => toDictMultiGo rest (ainsert res s (insert o vs))

/-- The `to_dict` result dict. -/
abbrev Dict (S O : Type) := List (S × DVal O)

/-- `PropertyExpr.to_dict(multiple)`: if `self.dict` (the memo) is set,
return it immediately — the triples and the `multiple` argument are not
consulted; otherwise run the mode's loop over the triples and store the
result.  Returns the dict together with the new memo state. -/
def toDict {S P O : Type} [DecidableEq S] [DecidableEq O] (multiple : Bool)
    (triples : List (S × P × O)) (memo : Option (Dict S O)) :
    Except (PEErr P S) (Dict S O × Option (Dict S O)) :=
  match memo with
  | some d => .ok (d, memo)
  | none =>
    if multiple then
      let d : Dict S O := (toDictMultiGo triples []).map fun x => (x.1, DVal.multi x.2)
      .ok (d, some d)
    else
      match toDictSingleGo triples [] with
      | .error e => .error e
      | .ok d => .ok (d, some d)

/-- Whether an `Except` computation raised. -/
def isError {ε α : Type} : Except ε α → Bool
  | .error _ => true
  | .ok _ => false

/-- The triples associate object `o` to subject `s` (through some predicate). -/
def tripleFor {S P O : Type} (triples : List (S × P × O)) (s : S) (o : O) : Prop :=
  ∃ p, (s, p, o) ∈ triples

/-- Some subject has two distinct objects among the triples. -/
def hasConflict {S P O : Type} (triples : List (S × P × O)) : Prop :=
  ∃ s o₁ o₂, tripleFor triples s o₁ ∧ tripleFor triples s o₂ ∧ o₁ ≠ o₂

theorem alookup_ainsert_self {K A : Type} [DecidableEq K] (res : List (K × A)) (k : K)
    (a : A) : alookup (ainsert res k a) k = some a := by
  induction res with
  | nil => simp [ainsert, alookup]
  | cons hd t ih =>
    obtain ⟨k', a'⟩ := hd
    by_cases h : k' = k
    · subst h; simp [ainsert, alookup]
    · simp [ainsert, alookup, h, ih]

theorem alookup_ainsert_ne {K A : Type} [DecidableEq K] (res : List (K × A)) (k q : K)
    (a : A) (h : k ≠ q) : alookup (ainsert res k a) q = alookup res q := by
  induction res with
  | nil => simp [ainsert, alookup, h]
  | cons hd t ih =>
    obtain ⟨k', a'⟩ := hd
    by_cases h' : k' = k
    · subst h'; simp [ainsert, alookup, h]
    · simp only [ainsert, if_neg h']
      by_cases h'' : k' = q <;> simp [alookup, h'', ih]

theorem tripleFor_cons_iff {S P O : Type} (s₀ : S) (p₀ : P) (o₀ : O)
    (rest : List (S × P × O)) (s : S) (o : O) :
    tripleFor ((s₀, p₀, o₀) :: rest) s o ↔ (s = s₀ ∧ o = o₀) ∨ tripleFor rest s o := by
  constructor
  · rintro ⟨p, hm⟩
    rcases List.mem_cons.mp hm with he | ht
    · simp only [Prod.mk.injEq] at he
      exact Or.inl ⟨he.1, he.2.2⟩
    · exact Or.inr ⟨p, ht⟩
  · rintro (⟨rfl, rfl⟩ | ⟨p, ht⟩)
    · exact ⟨p₀, List.mem_cons_self _ _⟩
    · exact ⟨p, List.mem_cons_of_mem _ ht⟩

theorem tripleFor_cons {S P O : Type} {x : S × P × O} {rest : List (S × P × O)}
    {s : S} {o : O} (h : tripleFor rest s o) : tripleFor (x :: rest) s o := by
  obtain ⟨p, hp⟩ := h
  exact ⟨p, List.mem_cons_of_mem _ hp⟩

/-- Soundness of the `multiple=False` error: if the loop raises, some triple
conflicts either with the accumulator or with another triple. -/
theorem singleGo_error_sound {S P O : Type} [DecidableEq S] [DecidableEq O] :
    ∀ (l : List (S × P × O)) (res : List (S × DVal O)),
      isError (toDictSingleGo (P := P) l res) = true →
      ∃ s o, tripleFor l s o ∧
        ((∃ cv, alookup res s = some cv ∧ cv ≠ DVal.single o) ∨
         (∃ o', tripleFor l s o' ∧ o ≠ o'))
  | [], res, h => by simp [toDictSingleGo, isError] at h
  | (s, p, o) :: rest, res, h => by
    cases hl : alookup res s with
    | some cv =>
      simp only [toDictSingleGo, hl] at h
      by_cases hcv : cv = DVal.single o
      · subst hcv
        rw [if_neg (by simp)] at h
        obtain ⟨s₁, o₁, hfor, hdisj⟩ := singleGo_error_sound rest _ h
        refine ⟨s₁, o₁, tripleFor_cons hfor, ?_⟩
        rcases hdisj with ⟨cv₁, hlk, hne⟩ | ⟨o', hf', hne⟩
        · by_cases hs : s = s₁
          · subst hs
            rw [alookup_ainsert_self] at hlk
            obtain rfl : DVal.single o = cv₁ := by injection hlk
            refine Or.inr ⟨o, (tripleFor_cons_iff ..).mpr (Or.inl ⟨rfl, rfl⟩), ?_⟩
            intro heq; exact hne (by rw [heq])
          · rw [alookup_ainsert_ne _ _ _ _ hs] at hlk
            exact Or.inl ⟨cv₁, hlk, hne⟩
        · exact Or.inr ⟨o', tripleFor_cons hf', hne⟩
      · exact ⟨s, o, (tripleFor_cons_iff ..).mpr (Or.inl ⟨rfl, rfl⟩),
          Or.inl ⟨cv, hl, hcv⟩⟩
    | none =>
      simp only [toDictSingleGo, hl] at h
      obtain ⟨s₁, o₁, hfor, hdisj⟩ := singleGo_error_sound rest _ h
      refine ⟨s₁, o₁, tripleFor_cons hfor, ?_⟩
      rcases hdisj with ⟨cv₁, hlk, hne⟩ | ⟨o', hf', hne⟩
      · by_cases hs : s = s₁
        · subst hs
          rw [alookup_ainsert_self] at hlk
          obtain rfl : DVal.single o = cv₁ := by injection hlk
          refine Or.inr ⟨o, (tripleFor_cons_iff ..).mpr (Or.inl ⟨rfl, rfl⟩), ?_⟩
          intro heq; exact hne (by rw [heq])
        · rw [alookup_ainsert_ne _ _ _ _ hs] at hlk
          exact Or.inl ⟨cv₁, hlk, hne⟩
      · exact Or.inr ⟨o', tripleFor_cons hf', hne⟩

theorem alookup_ainsert {K A : Type} [DecidableEq K] (res : List (K × A)) (k q : K)
    (a : A) : alookup (ainsert res k a) q = if k = q then some a else alookup res q := by
  by_cases h : k = q
  · rw [if_pos h, ← h, alookup_ainsert_self]
  · rw [if_neg h, alookup_ainsert_ne _ _ _ _ h]

/-- One loop step of `to_dict(multiple=False)` that does not raise preserves
the existence of a conflict: if a triple of the whole list conflicts with
the accumulator or with another triple, then, after the head triple has
been folded in, some triple of the tail conflicts with the new accumulator
or with another tail triple. -/
theorem conflict_step {S P O : Type} [DecidableEq S] [DecidableEq O]
    (s₀ : S) (p₀ : P) (o₀ : O) (rest : List (S × P × O))
    (res res' : List (S × DVal O)) (s : S) (o : O)
    (hres' : ∀ q, alookup res' q = if s₀ = q then some (DVal.single o₀) else alookup res q)
    (hacc : alookup res s₀ = none ∨ alookup res s₀ = some (DVal.single o₀))
    (hfor : tripleFor ((s₀, p₀, o₀) :: rest) s o)
    (hdisj : (∃ cv, alookup res s = some cv ∧ cv ≠ DVal.single o) ∨
             (∃ o', tripleFor ((s₀, p₀, o₀) :: rest) s o' ∧ o ≠ o')) :
    ∃ s' o'', tripleFor rest s' o'' ∧
      ((∃ cv, alookup res' s' = some cv ∧ cv ≠ DVal.single o'') ∨
       (∃ o', tripleFor rest s' o' ∧ o'' ≠ o')) := by
  rcases (tripleFor_cons_iff ..).mp hfor with ⟨hs, ho⟩ | hrest
  · rcases hdisj with ⟨cv₁, hlk, hne⟩ | ⟨o', hf', hne⟩
    · exfalso
      rw [hs] at hlk
      rcases hacc with hn | hsome
      · rw [hn] at hlk; cases hlk
      · rw [hsome] at hlk
        obtain h' : DVal.single o₀ = cv₁ := by injection hlk
        apply hne
        rw [← h', ho]
    · rcases (tripleFor_cons_iff ..).mp hf' with ⟨hs', ho'⟩ | hrest'
      · exact absurd (ho.trans ho'.symm) hne
      · refine ⟨s, o', hrest', Or.inl ⟨DVal.single o₀, ?_, ?_⟩⟩
        · rw [hres' s, if_pos hs.symm]
        · intro h
          injection h with h2
          exact hne (ho.trans h2)
  · rcases hdisj with ⟨cv₁, hlk, hne⟩ | ⟨o', hf', hne⟩
    · by_cases hss : s₀ = s
      · rcases hacc with hn | hsome
        · rw [← hss, hn] at hlk; cases hlk
        · rw [← hss, hsome] at hlk
          obtain h' : DVal.single o₀ = cv₁ := by injection hlk
          refine ⟨s, o, hrest, Or.inl ⟨DVal.single o₀, ?_, ?_⟩⟩
          · rw [hres' s, if_pos hss]
          · rw [h']; exact hne
      · refine ⟨s, o, hrest, Or.inl ⟨cv₁, ?_, hne⟩⟩
        rw [hres' s, if_neg hss]; exact hlk
    · rcases (tripleFor_cons_iff ..).mp hf' with ⟨hs', ho'⟩ | hrest'
      · refine ⟨s, o, hrest, Or.inl ⟨DVal.single o₀, ?_, ?_⟩⟩
        · rw [hres' s, if_pos hs'.symm]
        · intro h
          injection h with h2
          exact hne ((ho'.trans h2).symm)
      · exact ⟨s, o, hrest, Or.inr ⟨o', hrest', hne⟩⟩

/-- Completeness of the `multiple=False` error: a triple that conflicts with
the accumulator or with another triple makes the loop raise. -/
theorem singleGo_error_complete {S P O : Type} [DecidableEq S] [DecidableEq O] :
    ∀ (l : List (S × P × O)) (res : List (S × DVal O)) (s : S) (o : O),
      tripleFor l s o →
      ((∃ cv, alookup res s = some cv ∧ cv ≠ DVal.single o) ∨
       (∃ o', tripleFor l s o' ∧ o ≠ o')) →
      isError (toDictSingleGo (P := P) l res) = true
  | [], _, s, o, hfor, _ => by simp [tripleFor] at hfor
  | (s₀, p₀, o₀) :: rest, res, s, o, hfor, hdisj => by
    cases hl : alookup res s₀ with
    | some cv =>
      simp only [toDictSingleGo, hl]
      by_cases hcv : cv = DVal.single o₀
      · rw [if_neg (by simp [hcv])]
        obtain ⟨s', o'', hfor', hdisj'⟩ := conflict_step s₀ p₀ o₀ rest res _ s o
          (fun q => by rw [alookup_ainsert]) (Or.inr (by rw [hl, hcv])) hfor hdisj
        exact singleGo_error_complete rest _ s' o'' hfor' hdisj'
      · rw [if_pos (by simp [hcv])]
        rfl
    | none =>
      simp only [toDictSingleGo, hl]
      obtain ⟨s', o'', hfor', hdisj'⟩ := conflict_step s₀ p₀ o₀ rest res _ s o
        (fun q => by rw [alookup_ainsert]) (Or.inl hl) hfor hdisj
      exact singleGo_error_complete rest _ s' o'' hfor' hdisj'

/-- On a non-raising run, values already stored in the accumulator survive
to the final dict (a stored value is only ever overwritten by an equal
value; an unequal one raises instead). -/
theorem singleGo_ok_pers {S P O : Type} [DecidableEq S] [DecidableEq O] :
    ∀ (l : List (S × P × O)) (res d : List (S × DVal O)),
      toDictSingleGo (P := P) l res = .ok d →
      ∀ q cv, alookup res q = some cv → alookup d q = some cv
  | [], res, d, h, q, cv, hq => by
    simp only [toDictSingleGo] at h
    injection h with h'
    rw [← h']
    exact hq
  | (s₀, p₀, o₀) :: rest, res, d, h, q, cv, hq => by
    cases hl : alookup res s₀ with
    | some cv₀ =>
      simp only [toDictSingleGo, hl] at h
      by_cases hcv : cv₀ = DVal.single o₀
      · rw [if_neg (by simp [hcv])] at h
        apply singleGo_ok_pers rest _ d h q cv
        rw [alookup_ainsert]
        by_cases hsq : s₀ = q
        · rw [if_pos hsq]
          rw [hsq] at hl
          rw [hq] at hl
          injection hl with hl'
          rw [hl', hcv]
        · rw [if_neg hsq]; exact hq
      · rw [if_pos (by simp [hcv])] at h
        cases h
    | none =>
      simp only [toDictSingleGo, hl] at h
      apply singleGo_ok_pers rest _ d h q cv
      rw [alookup_ainsert]
      by_cases hsq : s₀ = q
      · rw [← hsq] at hq; rw [hq] at hl; cases hl
      · rw [if_neg hsq]; exact hq
  termination_by l => l.length

/-- On a non-raising run, each triple's object ends up stored (as a bare
single value) under its subject. -/
theorem singleGo_ok_store {S P O : Type} [DecidableEq S] [DecidableEq O] :
    ∀ (l : List (S × P × O)) (res d : List (S × DVal O)),
      toDictSingleGo (P := P) l res = .ok d →
      ∀ s p o, (s, p, o) ∈ l → alookup d s = some (DVal.single o)
  | [], res, d, h, s, p, o, hm => by simp at hm
  | (s₀, p₀, o₀) :: rest, res, d, h, s, p, o, hm => by
    have step :
        ∀ res', res' = ainsert res s₀ (DVal.single o₀) →
          toDictSingleGo (P := P) rest res' = .ok d →
          alookup d s = some (DVal.single o) := by
      intro res' hres' hrec
      rcases List.mem_cons.mp hm with he | ht
      · simp only [Prod.mk.injEq] at he
        obtain ⟨rfl, -, rfl⟩ := he
        apply singleGo_ok_pers rest res' d hrec
        rw [hres', alookup_ainsert_self]
      · exact singleGo_ok_store rest res' d hrec s p o ht
    cases hl : alookup res s₀ with
    | some cv₀ =>
      simp only [toDictSingleGo, hl] at h
      by_cases hcv : cv₀ = DVal.single o₀
      · rw [if_neg (by simp [hcv])] at h
        exact step _ rfl h
      · rw [if_pos (by simp [hcv])] at h
        cases h
    | none =>
      simp only [toDictSingleGo, hl] at h
      exact step _ rfl h
  termination_by l => l.length

/-- On a non-raising run, every stored single value comes from a triple (or
was already in the accumulator). -/
theorem singleGo_ok_lookup {S P O : Type} [DecidableEq S] [DecidableEq O] :
    ∀ (l : List (S × P × O)) (res d : List (S × DVal O)),
      toDictSingleGo (P := P) l res = .ok d →
      ∀ s o, alookup d s = some (DVal.single o) →
        tripleFor l s o ∨ alookup res s = some (DVal.single o)
  | [], res, d, h, s, o, hlk => by
    simp only [toDictSingleGo] at h
    injection h with h'
    rw [← h'] at hlk
    exact Or.inr hlk
  | (s₀, p₀, o₀) :: rest, res, d, h, s, o, hlk => by
    have step :
        toDictSingleGo (P := P) rest (ainsert res s₀ (DVal.single o₀)) = .ok d →
          tripleFor ((s₀, p₀, o₀) :: rest) s o ∨ alookup res s = some (DVal.single o) := by
      intro hrec
      rcases singleGo_ok_lookup rest _ d hrec s o hlk with hf | hacc
      · exact Or.inl (tripleFor_cons hf)
      · rw [alookup_ainsert] at hacc
        by_cases hsq : s₀ = s
        · rw [if_pos hsq] at hacc
          injection hacc with hacc'
          injection hacc' with hacc''
          exact Or.inl ((tripleFor_cons_iff ..).mpr (Or.inl ⟨hsq.symm, hacc''.symm⟩))
        · rw [if_neg hsq] at hacc
          exact Or.inr hacc
    cases hl : alookup res s₀ with
    | some cv₀ =>
      simp only [toDictSingleGo, hl] at h
      by_cases hcv : cv₀ = DVal.single o₀
      · rw [if_neg (by simp [hcv])] at h
        exact step h
      · rw [if_pos (by simp [hcv])] at h
        cases h
    | none =>
      simp only [toDictSingleGo, hl] at h
      exact step h
  termination_by l => l.length

/-- **C5** (confirmed).  On a `PropertyExpr` whose `to_dict` memo is unset,
`to_dict(multiple=False)` raises the multi-value error iff the expression's
triples contain two distinct objects for the same subject (repeated equal
objects for one subject do not raise); otherwise it returns a dict mapping
each subject to its single object. -/
theorem c5_to_dict_single {S P O : Type} [DecidableEq S] [DecidableEq O]
    (triples : List (S × P × O)) :
    (isError (toDict (P := P) false triples none) = true ↔ hasConflict triples) ∧
    (∀ (d : Dict S O) (memo' : Option (Dict S O)),
      toDict false triples none = .ok (d, memo') →
      ∀ s o, alookup d s = some (DVal.single o) ↔ tripleFor triples s o) := by
  constructor
  · constructor
    · intro h
      have h' : isError (toDictSingleGo (P := P) triples ([] : List (S × DVal O))) = true := by
        cases hs : toDictSingleGo (P := P) triples ([] : List (S × DVal O)) with
        | error e => rfl
        | ok d => simp [toDict, hs, isError] at h
      obtain ⟨s, o, hfor, hdisj⟩ := singleGo_error_sound triples [] h'
      rcases hdisj with ⟨cv, hlk, _⟩ | ⟨o', hf', hne⟩
      · simp [alookup] at hlk
      · exact ⟨s, o, o', hfor, hf', hne⟩
    · rintro ⟨s, o₁, o₂, hf1, hf2, hne⟩
      have h' := singleGo_error_complete triples [] s o₁ hf1 (Or.inr ⟨o₂, hf2, hne⟩)
      cases hs : toDictSingleGo (P := P) triples ([] : List (S × DVal O)) with
      | error e => simp [toDict, hs, isError]
      | ok d => rw [hs] at h'; simp [isError] at h'
  · intro d memo' h s o
    have hs : toDictSingleGo (P := P) triples ([] : List (S × DVal O)) = .ok d := by
      cases hs' : toDictSingleGo (P := P) triples ([] : List (S × DVal O)) with
      | error e => simp [toDict, hs'] at h
      | ok d' =>
        simp only [toDict, hs'] at h
        injection h with h2
        injection h2 with h3 h4
        rw [h3]
    constructor
    · intro hlk
      rcases singleGo_ok_lookup triples [] d hs s o hlk with hf | hemp
      · exact hf
      · simp [alookup] at hemp
    · rintro ⟨p, hp⟩
      exact singleGo_ok_store triples [] d hs s p o hp

theorem c5_to_dict_single_witness :
    isError (toDict (P := Nat) false [((0 : Nat), (0 : Nat), (1 : Nat)), (0, 0, 2)] none) =
      true ∧
    alookup [((0 : Nat), DVal.single (1 : Nat)), (1, DVal.single 2)] 0 =
      some (DVal.single 1) :=
  ⟨(c5_to_dict_single _).1.mpr
      ⟨0, 1, 2, ⟨0, by decide⟩, ⟨0, by decide⟩, by decide⟩,
   ((c5_to_dict_single [((0 : Nat), (0 : Nat), (1 : Nat)), (1, 0, 2)]).2
      [(0, DVal.single 1), (1, DVal.single 2)] (some [(0, DVal.single 1), (1, DVal.single 2)])
      rfl 0 1).mpr ⟨0, by decide⟩⟩

/-- **C10** (confirmed).  The first successful `to_dict` call stores its
result in `self.dict`; every later `to_dict(m)` call returns the identical
cached dict and ignores both the triples and the `multiple` argument — in
particular `to_dict(multiple=False)` after a completed `to_dict(multiple=True)`
cannot raise the multi-value error. -/
theorem c10_to_dict_cached {S P O : Type} [DecidableEq S] [DecidableEq O]
    (m₁ m₂ : Bool) (triples : List (S × P × O)) (d : Dict S O)
    (memo' : Option (Dict S O))
    (h : toDict (P := P) m₁ triples none = .ok (d, memo')) :
    memo' = some d ∧ toDict m₂ triples memo' = .ok (d, memo') := by
  have hm : memo' = some d := by
    cases m₁ with
    | true =>
      simp only [toDict, if_true] at h
      injection h with h2
      injection h2 with h3 h4
      rw [← h4, h3]
    | false =>
      cases hs : toDictSingleGo (P := P) triples ([] : List (S × DVal O)) with
      | error e => simp [toDict, hs] at h
      | ok d' =>
        simp only [toDict, hs] at h
        injection h with h2
        injection h2 with h3 h4
        rw [← h4, h3]
  subst hm
  exact ⟨rfl, rfl⟩

/-- The cached-dict scenario at a concrete input: the triples give subject
`0` two distinct objects, so a fresh `to_dict(multiple=False)` raises, yet
after `to_dict(multiple=True)` has populated the cache the same
`to_dict(multiple=False)` call returns the cached dict. -/
def c10triples : List (Nat × Nat × Nat) := [(0, 0, 1), (0, 0, 2)]

def c10dict : Dict Nat Nat :=
  (toDictMultiGo c10triples []).map fun x => (x.1, DVal.multi x.2)

theorem c10_to_dict_cached_witness :
    isError (toDict (P := Nat) false c10triples none) = true ∧
    toDict false c10triples (some c10dict) = .ok (c10dict, some c10dict) :=
  ⟨by decide,
   (c10_to_dict_cached true false c10triples c10dict (some c10dict) rfl).2⟩

/-! ## DataSource.__init__ ("also" alias sources)

From `datasource.py`.  Fields (`Informational` declarations) are identified
by `Nat` names; `kwargs` maps a field name to the value passed to
`__init__` for it (`none` = not passed or passed `None`, which Python's
`new_kwargs.get(n, None)` does not distinguish). -/

/-- The slice of an `Informational` that `DataSource.__init__` consults:
its `name`, `default_value`, `default_override` and the names of the
`also` target fields. -/
structure Inf (V : Type) where
  name : Nat
  defaultValue : Option V
  defaultOverride : Option V
  also : List Nat

/-- One entry of the `vals` defaultdict: the optional `'i'` (init arg),
`'e'` (default override), `'a'` (also/alias) and `'d'` (default) keys.
A missing key is `none`; note `vals[n]['d']` is always *assigned*, but its
assigned value `inf.default_value` may itself be `None`, which coincides
with `none` here exactly as `vl.get('i', vl.get('e', vl.get('a', vl['d'])))`
treats it. -/
structure VRec (V : Type) where
  i : Option V := none
  e : Option V := none
  a : Option V := none
  d : Option V := none

/-- `DuplicateAlsoException('Only one also is allowed')`. -/
inductive DupErr where
  | dupAlso
deriving DecidableEq

/-- The local `v` in the `__init__` loop:
`v = new_kwargs.get(n, None); if v is not None: ... else: v = inf.default_value`. -/
def fieldVal {V : Type} (kwargs : Nat → Option V) (inf : Inf V) : Option V :=
  match kwargs inf.name with
  | some v => some v
  | none => inf.defaultValue

/-- The inner loop

```
for also in inf.also:
    if v is not None and vals[also.name].setdefault('a', v) != v:
        raise DuplicateAlsoException('Only one also is allowed')
```

`setdefault('a', v)` stores `v` under `'a'` if the key is absent and
returns the stored value. -/
def alsoLoop {V : Type} [DecidableEq V] (v : Option V) :
    List Nat → (Nat → VRec V) → Except DupErr (Nat → VRec V)
  | [], vals => .ok vals
  | t :: rest, vals =>
    match v with
    | none => alsoLoop v rest vals
    | some vv =>
      match (vals t).a with
      | none => alsoLoop v rest (Function.update vals t { vals t with a := some vv })
      | some w => if w ≠ vv then .error .dupAlso else alsoLoop v rest vals

/-- The `'i'`/`'e'`/`'d'` assignments performed for a source field `inf`:
`vals[n]['i'] = v` (when a kwarg was passed), `vals[n]['e'] =
inf.default_override` (when set) and `vals[n]['d'] = inf.default_value`. -/
def recordSrcVals {V : Type} [DecidableEq V] (kwargs : Nat → Option V) (inf : Inf V)
    (vals : Nat → VRec V) : Nat → VRec V :=
  let vals1 :=
    match kwargs inf.name with
    | some vv => Function.update vals inf.name { vals inf.name with i := some vv }
    | none => vals
  let vals2 :=
    match inf.defaultOverride with
    | some ov => Function.update vals1 inf.name { vals1 inf.name with e := some ov }
    | none => vals1
  Function.update vals2 inf.name { vals2 inf.name with d := inf.defaultValue }

/-- The main loop of `DataSource.__init__` over `self.info_fields`. -/
def initLoop {V : Type} [DecidableEq V] (kwargs : Nat → Option V) :
    List (Inf V) → (Nat → VRec V) → Except DupErr (Nat → VRec V)
  | [], vals => .ok vals
  | inf :: rest, vals =>
    match alsoLoop (fieldVal kwargs inf) inf.also (recordSrcVals kwargs inf vals) with
    | .error e => .error e
    | .ok vals' => initLoop kwargs rest vals'

/-- `vl.get('i', vl.get('e', vl.get('a', vl['d'])))`. -/
def chooseVal {V : Type} (r : VRec V) : Option V :=
  match r.i with
  | some x => some x
  | none =>
    match r.e with
    | some x => some x
    | none =>
      match r.a with
      | some x => some x
      | none => r.d

/-- `DataSource.__init__` as far as the info-field handling goes: run the
main loop from an empty `vals`, then select, for each field, the value its
contextualized property is called with (`none` = no call, since
`if v is not None: ctxd_prop(v)`). -/
def dsInit {V : Type} [DecidableEq V] (kwargs : Nat → Option V) (fields : List (Inf V)) :
    Except DupErr (List (Nat × Option V)) :=
  match initLoop kwargs fields (fun _ => {}) with
  | .error e => .error e
  | .ok vals => .ok (fields.map fun inf => (inf.name, chooseVal (vals inf.name)))

/-- An alias ("also") source field among `fields` supplies the non-null
value `v` for the derived field named `t`. -/
def supplies {V : Type} (kwargs : Nat → Option V) (fields : List (Inf V)) (t : Nat)
    (v : V) : Prop :=
  ∃ inf, inf ∈ fields ∧ fieldVal kwargs inf = some v ∧ t ∈ inf.also

/-- The `'i'`/`'e'`/`'d'` assignments never touch the `'a'` slot of any
entry. -/
theorem recordSrcVals_a {V : Type} [DecidableEq V] (kwargs : Nat → Option V)
    (inf : Inf V) (vals : Nat → VRec V) (t : Nat) :
    ((recordSrcVals kwargs inf vals) t).a = (vals t).a := by
  unfold recordSrcVals
  cases hk : kwargs inf.name <;> cases ho : inf.defaultOverride <;>
    simp only [Function.update_apply] <;>
      by_cases ht : t = inf.name <;> simp [ht]

theorem alsoLoop_none_ok {V : Type} [DecidableEq V] :
    ∀ (ts : List Nat) (vals : Nat → VRec V), alsoLoop none ts vals = .ok vals
  | [], _ => rfl
  | _ :: rest, vals => alsoLoop_none_ok rest vals

/-- Error characterization of the inner also-loop: with a non-null source
value `vv`, it raises iff some target already has a stored alias value
different from `vv`. -/
theorem alsoLoop_some_error {V : Type} [DecidableEq V] (vv : V) :
    ∀ (ts : List Nat) (vals : Nat → VRec V),
      isError (alsoLoop (some vv) ts vals) = true ↔
        ∃ t, t ∈ ts ∧ ∃ w, (vals t).a = some w ∧ w ≠ vv
  | [], vals => by simp [alsoLoop, isError]
  | t₀ :: rest, vals => by
    cases ha : (vals t₀).a with
    | none =>
      simp only [alsoLoop, ha]
      rw [alsoLoop_some_error vv rest _]
      constructor
      · rintro ⟨t, ht, w, hw, hne⟩
        by_cases htt : t = t₀
        · rw [htt, Function.update_same] at hw
          simp only at hw
          injection hw with hw'
          exact absurd hw'.symm hne
        · rw [Function.update_apply, if_neg htt] at hw
          exact ⟨t, List.mem_cons_of_mem _ ht, w, hw, hne⟩
      · rintro ⟨t, ht, w, hw, hne⟩
        rcases List.mem_cons.mp ht with rfl | ht'
        · rw [ha] at hw; cases hw
        · refine ⟨t, ht', w, ?_, hne⟩
          rw [Function.update_apply]
          by_cases htt : t = t₀
          · rw [htt, ha] at hw; cases hw
          · rw [if_neg htt]; exact hw
    | some w₀ =>
      simp only [alsoLoop, ha]
      by_cases hww : w₀ = vv
      · rw [if_neg (by simp [hww])]
        rw [alsoLoop_some_error vv rest vals]
        constructor
        · rintro ⟨t, ht, w, hw, hne⟩
          exact ⟨t, List.mem_cons_of_mem _ ht, w, hw, hne⟩
        · rintro ⟨t, ht, w, hw, hne⟩
          rcases List.mem_cons.mp ht with rfl | ht'
          · rw [ha] at hw
            injection hw with hw'
            rw [← hw', hww] at hne
            exact absurd rfl hne
          · exact ⟨t, ht', w, hw, hne⟩
      · rw [if_pos (by simp [hww])]
        simp only [isError, true_iff]
        exact ⟨t₀, List.mem_cons_self _ _, w₀, ha, hww⟩

/-- Successful runs of the also-loop: stored alias values persist, and any
stored alias value either was there before or is the supplied value for a
target of this loop. -/
theorem alsoLoop_ok_a {V : Type} [DecidableEq V] (vv : V) :
    ∀ (ts : List Nat) (vals vals' : Nat → VRec V),
      alsoLoop (some vv) ts vals = .ok vals' →
      ∀ t w,
        ((vals' t).a = some w → (vals t).a = some w ∨ (w = vv ∧ t ∈ ts)) ∧
        ((vals t).a = some w → (vals' t).a = some w)
  | [], vals, vals', h, t, w => by
    simp only [alsoLoop] at h
    injection h with h'
    subst h'
    exact ⟨fun hw => Or.inl hw, fun hw => hw⟩
  | t₀ :: rest, vals, vals', h, t, w => by
    cases ha : (vals t₀).a with
    | none =>
      simp only [alsoLoop, ha] at h
      have ih := alsoLoop_ok_a vv rest _ vals' h t w
      constructor
      · intro hw
        rcases ih.1 hw with hup | ⟨rfl, ht⟩
        · rw [Function.update_apply] at hup
          by_cases htt : t = t₀
          · rw [if_pos htt] at hup
            simp only at hup
            injection hup with hup'
            exact Or.inr ⟨hup'.symm, htt ▸ List.mem_cons_self _ _⟩
          · rw [if_neg htt] at hup
            exact Or.inl hup
        · exact Or.inr ⟨rfl, List.mem_cons_of_mem _ ht⟩
      · intro hw
        apply ih.2
        rw [Function.update_apply]
        by_cases htt : t = t₀
        · rw [htt, ha] at hw; cases hw
        · rw [if_neg htt]; exact hw
    | some w₀ =>
      simp only [alsoLoop, ha] at h
      by_cases hww : w₀ = vv
      · rw [if_neg (by simp [hww])] at h
        have ih := alsoLoop_ok_a vv rest _ vals' h t w
        constructor
        · intro hw
          rcases ih.1 hw with hold | ⟨rfl, ht⟩
          · exact Or.inl hold
          · exact Or.inr ⟨rfl, List.mem_cons_of_mem _ ht⟩
        · exact ih.2
      · rw [if_pos (by simp [hww])] at h
        cases h

/-- Successful runs of the also-loop store the supplied value at every
target: success requires any preexisting alias value to equal it. -/
theorem alsoLoop_ok_store {V : Type} [DecidableEq V] (vv : V) :
    ∀ (ts : List Nat) (vals vals' : Nat → VRec V),
      alsoLoop (some vv) ts vals = .ok vals' →
      ∀ t, t ∈ ts → (vals' t).a = some vv
  | [], vals, vals', h, t, ht => by simp at ht
  | t₀ :: rest, vals, vals', h, t, ht => by
    cases ha : (vals t₀).a with
    | none =>
      simp only [alsoLoop, ha] at h
      rcases List.mem_cons.mp ht with rfl | ht'
      · apply (alsoLoop_ok_a vv rest _ vals' h t (vv)).2
        rw [Function.update_same]
      · exact alsoLoop_ok_store vv rest _ vals' h t ht'
    | some w₀ =>
      simp only [alsoLoop, ha] at h
      by_cases hww : w₀ = vv
      · rw [if_neg (by simp [hww])] at h
        rcases List.mem_cons.mp ht with rfl | ht'
        · apply (alsoLoop_ok_a vv rest _ vals' h t vv).2
          rw [ha, hww]
        · exact alsoLoop_ok_store vv rest _ vals' h t ht'
      · rw [if_pos (by simp [hww])] at h
        cases h

/-- Soundness of `DuplicateAlsoException`: if the init loop raises then,
relative to an invariant `Pr` describing where the initial accumulator's
alias values can come from, two differing values were supplied (or one was
supplied and conflicts with a preexisting alias value). -/
theorem initLoop_error_sound {V : Type} [DecidableEq V] (kwargs : Nat → Option V) :
    ∀ (fields : List (Inf V)) (vals : Nat → VRec V) (Pr : Nat → V → Prop),
      (∀ t w, (vals t).a = some w → Pr t w) →
      isError (initLoop kwargs fields vals) = true →
      ∃ t v₁ v₂, (Pr t v₁ ∨ supplies kwargs fields t v₁) ∧
        supplies kwargs fields t v₂ ∧ v₁ ≠ v₂
  | [], vals, Pr, hInv, h => by simp [initLoop, isError] at h
  | inf :: rest, vals, Pr, hInv, h => by
    cases hal : alsoLoop (fieldVal kwargs inf) inf.also (recordSrcVals kwargs inf vals) with
    | error e =>
      cases hv : fieldVal kwargs inf with
      | none => rw [hv, alsoLoop_none_ok] at hal; cases hal
      | some vv =>
        have herr :
            isError (alsoLoop (some vv) inf.also (recordSrcVals kwargs inf vals)) = true := by
          rw [← hv, hal]; rfl
        obtain ⟨t, ht, w, hw, hne⟩ := (alsoLoop_some_error vv inf.also _).mp herr
        rw [recordSrcVals_a] at hw
        exact ⟨t, w, vv, Or.inl (hInv t w hw),
          ⟨inf, List.mem_cons_self _ _, hv, ht⟩, hne⟩
    | ok vals1 =>
      simp only [initLoop, hal] at h
      have hInv1 : ∀ t w, (vals1 t).a = some w →
          (Pr t w ∨ supplies kwargs [inf] t w) := by
        intro t w hw
        cases hv : fieldVal kwargs inf with
        | none =>
          rw [hv, alsoLoop_none_ok] at hal
          injection hal with hal'
          rw [← hal', recordSrcVals_a] at hw
          exact Or.inl (hInv t w hw)
        | some vv =>
          rw [hv] at hal
          rcases (alsoLoop_ok_a vv inf.also _ vals1 hal t w).1 hw with hold | ⟨rfl, ht⟩
          · rw [recordSrcVals_a] at hold
            exact Or.inl (hInv t w hold)
          · exact Or.inr ⟨inf, List.mem_cons_self _ _, hv, ht⟩
      obtain ⟨t, v₁, v₂, h1, h2, hne⟩ :=
        initLoop_error_sound kwargs rest vals1
          (fun t w => Pr t w ∨ supplies kwargs [inf] t w) hInv1 h
      refine ⟨t, v₁, v₂, ?_, ?_, hne⟩
      · rcases h1 with (hP | hS1) | hSr
        · exact Or.inl hP
        · obtain ⟨inf', hm, hfv, ht⟩ := hS1
          obtain rfl := List.mem_singleton.mp hm
          exact Or.inr ⟨inf', List.mem_cons_self _ _, hfv, ht⟩
        · obtain ⟨inf', hm, hfv, ht⟩ := hSr
          exact Or.inr ⟨inf', List.mem_cons_of_mem _ hm, hfv, ht⟩
      · obtain ⟨inf', hm, hfv, ht⟩ := h2
        exact ⟨inf', List.mem_cons_of_mem _ hm, hfv, ht⟩

/-- Alias values stored in the accumulator persist across a successful run
of the init loop. -/
theorem initLoop_pers {V : Type} [DecidableEq V] (kwargs : Nat → Option V) :
    ∀ (fields : List (Inf V)) (vals vals' : Nat → VRec V),
      initLoop kwargs fields vals = .ok vals' →
      ∀ t w, (vals t).a = some w → (vals' t).a = some w
  | [], vals, vals', h, t, w, hw => by
    simp only [initLoop] at h
    injection h with h'
    rw [← h']
    exact hw
  | inf :: rest, vals, vals', h, t, w, hw => by
    cases hal : alsoLoop (fieldVal kwargs inf) inf.also (recordSrcVals kwargs inf vals) with
    | error e => simp [initLoop, hal] at h
    | ok vals1 =>
      simp only [initLoop, hal] at h
      apply initLoop_pers kwargs rest vals1 vals' h t w
      cases hv : fieldVal kwargs inf with
      | none =>
        rw [hv, alsoLoop_none_ok] at hal
        injection hal with hal'
        rw [← hal', recordSrcVals_a]
        exact hw
      | some vv =>
        rw [hv] at hal
        apply (alsoLoop_ok_a vv inf.also _ vals1 hal t w).2
        rw [recordSrcVals_a]
        exact hw

/-- A successful run of the init loop stores every supplied alias value at
its target. -/
theorem initLoop_store {V : Type} [DecidableEq V] (kwargs : Nat → Option V) :
    ∀ (fields : List (Inf V)) (vals vals' : Nat → VRec V),
      initLoop kwargs fields vals = .ok vals' →
      ∀ t vv, supplies kwargs fields t vv → (vals' t).a = some vv
  | [], vals, vals', h, t, vv, hs => by
    obtain ⟨inf, hm, -, -⟩ := hs
    simp at hm
  | inf :: rest, vals, vals', h, t, vv, hs => by
    cases hal : alsoLoop (fieldVal kwargs inf) inf.also (recordSrcVals kwargs inf vals) with
    | error e => simp [initLoop, hal] at h
    | ok vals1 =>
      simp only [initLoop, hal] at h
      obtain ⟨inf', hm, hfv, ht⟩ := hs
      rcases List.mem_cons.mp hm with rfl | hm'
      · rw [hfv] at hal
        have h1 := alsoLoop_ok_store vv inf'.also _ vals1 hal t ht
        exact initLoop_pers kwargs rest vals1 vals' h t vv h1
      · exact initLoop_store kwargs rest vals1 vals' h t vv ⟨inf', hm', hfv, ht⟩

theorem initLoop_error_complete {V : Type} [DecidableEq V] (kwargs : Nat → Option V)
    (fields : List (Inf V)) (vals : Nat → VRec V) (t : Nat) (v₁ v₂ : V)
    (h1 : supplies kwargs fields t v₁) (h2 : supplies kwargs fields t v₂)
    (hne : v₁ ≠ v₂) : isError (initLoop kwargs fields vals) = true := by
  cases hI : initLoop kwargs fields vals with
  | error e => rfl
  | ok vals' =>
    exfalso
    have s1 := initLoop_store kwargs fields vals vals' hI t v₁ h1
    have s2 := initLoop_store kwargs fields vals vals' hI t v₂ h2
    rw [s1] at s2
    injection s2 with s3
    exact hne s3

/-- **C9** (confirmed).  `DataSource.__init__` raises
`DuplicateAlsoException` iff two alias ("also") source properties supply
differing non-null values for the same derived property; alias sources
agreeing on an equal value, or a single alias source, do not raise. -/
theorem c9_duplicate_also {V : Type} [DecidableEq V] (kwargs : Nat → Option V)
    (fields : List (Inf V)) :
    isError (dsInit kwargs fields) = true ↔
      ∃ t v₁ v₂, supplies kwargs fields t v₁ ∧ supplies kwargs fields t v₂ ∧ v₁ ≠ v₂ := by
  have hd : isError (dsInit kwargs fields) =
      isError (initLoop kwargs fields (fun _ => {})) := by
    unfold dsInit
    cases hI : initLoop kwargs fields (fun _ => ({} : VRec V)) <;> rfl
  rw [hd]
  constructor
  · intro h
    obtain ⟨t, v₁, v₂, hA, hB, hne⟩ :=
      initLoop_error_sound kwargs fields _ (fun _ _ => False)
        (fun t w hw => Option.noConfusion hw) h
    rcases hA with hF | hS
    · exact hF.elim
    · exact ⟨t, v₁, v₂, hS, hB, hne⟩
  · rintro ⟨t, v₁, v₂, h1, h2, hne⟩
    exact initLoop_error_complete kwargs fields _ t v₁ v₂ h1 h2 hne

end OwMeta
